import Mathlib

/-!
Verification of the file-classification orchestration, folder-taxonomy
reconciliation and script-generation core of the `gemini-file-sorter`
browser application (`src/app.component.ts`).

The TypeScript code is shallowly embedded: strings are Lean `String`s
(lists of characters), JS regex-replace operations become recursive
functions on `List Char`, the Angular signal state becomes an explicit
`AppState` record, and the asynchronous classifier is an explicit oracle
`Nat → Except Unit AnalysisResult` giving the settled outcome of each
classification call of a run.

Two deliberate modelling notes, both marked again at the definitions:
* `String.prototype.toLowerCase` is modelled by ASCII case folding
  (`Char.toLower`); every lower-case comparison performed by the app
  involves the ASCII literals `"miscellaneous"` / taxonomy entries, and
  on ASCII the two agree.
* JS `Array.prototype.sort` on strings compares UTF-16 code units; the
  model compares Lean characters (code points). The two orders agree on
  all strings without supplementary-plane characters.
-/

namespace GeminiFileSorter

/-! ## JS string primitives used by the component -/

/-- The WhiteSpace/LineTerminator set trimmed by `String.prototype.trim`. -/
def isJsWhitespace (c : Char) : Bool :=
  c.val == 0x9 || c.val == 0xA || c.val == 0xB || c.val == 0xC || c.val == 0xD ||
  c.val == 0x20 || c.val == 0xA0 || c.val == 0x1680 ||
  (0x2000 ≤ c.val && c.val ≤ 0x200A) ||
  c.val == 0x2028 || c.val == 0x2029 || c.val == 0x202F || c.val == 0x205F ||
  c.val == 0x3000 || c.val == 0xFEFF

/-- `s.trim()` on the character list: drop JS whitespace from both ends. -/
def jsTrimL (l : List Char) : List Char :=
  ((l.dropWhile isJsWhitespace).reverse.dropWhile isJsWhitespace).reverse

/-- `s.trim()` at the `String` level. -/
def jsTrim (s : String) : String := ⟨jsTrimL s.data⟩

/-- ASCII case folding; models `String.prototype.toLowerCase` for this app
(all case-insensitive comparisons in the component are against ASCII data,
where JS `toLowerCase` performs exactly this mapping). -/
def jsToLower (s : String) : String := ⟨s.data.map Char.toLower⟩

/-- The character class of the folder sanitizer regex `[<>:"|?*]`. -/
def folderIllegalChar (c : Char) : Bool :=
  c == '<' || c == '>' || c == ':' || c == '"' || c == '|' || c == '?' || c == '*'

/-- The character class of the filename sanitizer regex `[<>:"/\\|?*]`. -/
def filenameIllegalChar (c : Char) : Bool :=
  folderIllegalChar c || c == '/' || c == '\\'

/-- A path-separator character (the class `[/\\]`). -/
def isSep (c : Char) : Bool := c == '/' || c == '\\'

/-- `.replace(/[/\\]+/g, '/')`: rewrite every maximal run of separator
characters to a single forward slash. -/
def collapseSeps : List Char → List Char
  | [] => []
  | [c] => if isSep c then ['/'] else [c]
  | c1 :: c2 :: rest =>
    if isSep c1 then
      if isSep c2 then collapseSeps (c2 :: rest)
      else '/' :: collapseSeps (c2 :: rest)
    else c1 :: collapseSeps (c2 :: rest)

/-- `String.prototype.split(',')` on the character list: groups between
comma occurrences (empty groups preserved, as in JS). -/
def splitCommasL : List Char → List (List Char)
  | [] => [[]]
  | c :: rest =>
    if c == ',' then [] :: splitCommasL rest
    else
      match splitCommasL rest with
      | [] => [[c]]
      | g :: gs => (c :: g) :: gs

/-- `s.split(',')` at the `String` level. -/
def jsSplitCommas (s : String) : List String :=
  (splitCommasL s.data).map (fun l => ⟨l⟩)

/-- `originalPath.split(/[/\\]+/)`: split on maximal runs of separator
characters (a leading/trailing run contributes an empty group, interior
runs act as single separators, as the JS regex split does). -/
def splitSepRunsL : List Char → List (List Char)
  | [] => [[]]
  | [c] => if isSep c then [[], []] else [[c]]
  | c1 :: c2 :: rest =>
    if isSep c1 then
      if isSep c2 then splitSepRunsL (c2 :: rest)
      else [] :: splitSepRunsL (c2 :: rest)
    else
      match splitSepRunsL (c2 :: rest) with
      | [] => [[c1]]
      | g :: gs => (c1 :: g) :: gs

/-- `.replace(/'/g, "''")`: double every single-quote character. -/
def escQuotesL : List Char → List Char
  | [] => []
  | c :: rest =>
    if c == '\x27' then '\x27' :: '\x27' :: escQuotesL rest
    else c :: escQuotesL rest

/-- `.replace(/\//g, '\\')`: forward slashes to backslashes. -/
def slashToBackslashL (l : List Char) : List Char :=
  l.map (fun c => if c == '/' then '\\' else c)

/-- `Array.from(new Set(xs))`: deduplicate keeping the first occurrence of
each element, preserving encounter order. -/
def jsSetDedup (seen : List String) : List String → List String
  | [] => []
  | x :: xs =>
    if x ∈ seen then jsSetDedup seen xs
    else x :: jsSetDedup (x :: seen) xs

/-- `[a, b, c].join(sep)` on character lists. -/
def joinWithL (sep : List Char) : List (List Char) → List Char
  | [] => []
  | [g] => g
  | g :: gs => g ++ sep ++ joinWithL sep gs

/-- `xs.join(', ')` at the `String` level, as used by the folder merge. -/
def joinCommaSpace (xs : List String) : String :=
  ⟨joinWithL [',', ' '] (xs.map String.data)⟩

/-! ## The sanitizers (`app.component.ts` lines 465-474) -/

/-- `sanitizeFolderPath`: trim, delete the characters `< > : " | ? *`,
then collapse every run of `/` and `\` to a single `/`. -/
def sanitizeFolderPath (path : String) : String :=
  if path == "" then ""
  else ⟨collapseSeps ((jsTrimL path.data).filter (fun c => !folderIllegalChar c))⟩

/-- `sanitizeFilename`: trim, then delete the characters
`< > : " / \ | ? *` (path separators are disallowed in filenames). -/
def sanitizeFilename (name : String) : String :=
  if name == "" then ""
  else ⟨(jsTrimL name.data).filter (fun c => !filenameIllegalChar c)⟩

/-! ## The derived selectable folder list (`foldersForSelect`, lines 61-68) -/

/-- Lexicographic comparison of character lists by code point; models the
default JS `Array.prototype.sort` string comparison (code points and UTF-16
code units order identically outside the supplementary planes). -/
def lebL : List Char → List Char → Bool
  | [], _ => true
  | _ :: _, [] => false
  | a :: as, b :: bs =>
    if a.toNat < b.toNat then true
    else if b.toNat < a.toNat then false
    else lebL as bs

/-- The string comparison used by `uniqueFolders.sort()`. -/
def jsLeb (a b : String) : Bool := lebL a.data b.data

/-- The sort order as a relation, for use with `List.insertionSort`. -/
def jsLe (a b : String) : Prop := jsLeb a b = true

instance : DecidableRel jsLe := fun a b => instDecidableEqBool (jsLeb a b) true

/-- The parse of the comma-separated folder configuration used both by
`foldersForSelect` and by the merge callback inside `organizeFiles`:
`folders.split(',').map(f => sanitizeFolderPath(f)).filter(f => f)`. -/
def parseFolderConfig (folders : String) : List String :=
  ((jsSplitCommas folders).map sanitizeFolderPath).filter (fun f => f != "")

/-- `foldersForSelect`: parse the configuration, deduplicate (JS `Set`,
exact equality), append `'Miscellaneous'` when no entry lower-cases to
`'miscellaneous'`, and sort (JS default string sort). -/
def foldersForSelect (folders : String) : List String :=
  let folderList := parseFolderConfig folders
  let uniqueFolders := jsSetDedup [] folderList
  let withMisc :=
    if (uniqueFolders.find? (fun f => jsToLower f == "miscellaneous")).isSome
    then uniqueFolders
    else uniqueFolders ++ ["Miscellaneous"]
  List.insertionSort jsLe withMisc

/-! ## Data model (`app.component.ts` lines 8-30, 42-59) -/

/-- `FileStatus`. -/
inductive FileStatus where
  | pending
  | processing
  | done
  | error
deriving DecidableEq

/-- `AppFile`. The preview payload fields (`originalFile`, `dataUrl`,
`safeUrl`, `base64Data`, `extractedText`, `blob`) are not read by the
orchestration, taxonomy or script-generation logic and are omitted from
the model. -/
structure FileRec where
  id : String
  name : String
  type : String
  size : Nat
  originalPath : String
  status : FileStatus
  suggestion : Option String
  finalFolder : Option String
  tags : List String
  summary : Option String
  suggestedName : Option String
  useNewName : Bool
  errorMessage : Option String
deriving DecidableEq

/-- The classifier response contract (`AnalysisResult` in
`services/gemini.service.ts`). -/
structure AnalysisResult where
  folder : String
  tags : List String
  summary : String
  suggestedFilename : String
deriving DecidableEq

/-- The component state touched by the orchestrator: the `files`,
`folders`, `isProcessing`, `processedCount` and `totalToProcess`
signals. -/
structure AppState where
  files : List FileRec
  folders : String
  isProcessing : Bool
  processedCount : Nat
  totalToProcess : Nat
deriving DecidableEq

/-- `progressPercentage` (lines 55-59), in exact rational arithmetic;
for the values reached here (`processedCount ≤ totalToProcess`, small
integers) JS float arithmetic is exact, in particular `N / N * 100`
is exactly `100`. -/
def progressPercentage (s : AppState) : ℚ :=
  if s.totalToProcess = 0 then 0
  else (s.processedCount : ℚ) / (s.totalToProcess : ℚ) * 100

/-! ## Classification orchestrator (`organizeFiles`, lines 325-405) -/

/-- The successful-classification record update (lines 375-389). -/
def applySuccess (result : AnalysisResult)
    (suggestedFolder finalFolder suggestedFilename : String) (f : FileRec) :
    FileRec :=
  { f with
    status := .done
    suggestion := some suggestedFolder
    finalFolder := some finalFolder
    tags := result.tags
    summary := some result.summary
    suggestedName := some suggestedFilename }

/-- The `folders.update` callback of the no-match branch (lines 366-372):
re-read the configuration current at update time, re-check case-insensitive
membership, and append only when still absent. Taking `currentFolders` as
an argument models that a sibling in-flight classification may have
updated the configuration between the lookup and this callback. -/
def mergeFolders (currentFolders : String) (finalFolder : String) : String :=
  let currentList := parseFolderConfig currentFolders
  if (currentList.find? (fun f => jsToLower f == jsToLower finalFolder)).isSome
  then currentFolders
  else joinCommaSpace (currentList ++ [finalFolder])

/-- Settling of a single classification call (the body of the
`batch.map(async file => ...)` closure, lines 351-400): `res` is the
settled outcome of `geminiService.analyzeFile`. -/
def processOne (res : Except Unit AnalysisResult) (file : FileRec)
    (s : AppState) : AppState :=
  match res with
  | .ok result =>
    let suggestedFolder := sanitizeFolderPath result.folder
    let suggestedFilename := sanitizeFilename result.suggestedFilename
    let existingFolders := foldersForSelect s.folders
    match existingFolders.find?
        (fun f => jsToLower f == jsToLower suggestedFolder) with
    | some m =>
      { s with
        files := s.files.map (fun f =>
          if f.id == file.id
          then applySuccess result suggestedFolder m suggestedFilename f
          else f)
        processedCount := s.processedCount + 1 }
    | none =>
      let s1 := { s with folders := mergeFolders s.folders suggestedFolder }
      { s1 with
        files := s1.files.map (fun f =>
          if f.id == file.id
          then applySuccess result suggestedFolder suggestedFolder
                 suggestedFilename f
          else f)
        processedCount := s1.processedCount + 1 }
  | .error _ =>
    { s with
      files := s.files.map (fun f =>
        if f.id == file.id
        then { f with status := .error
                      errorMessage := some "AI analysis failed." }
        else f)
      processedCount := s.processedCount + 1 }

/-- One concurrency window (`Promise.all(batch.map(...))`), linearized in
batch order. The calls of a window race only on the folder configuration,
which each settled call re-reads at its own update (`mergeFolders`);
statuses and counters are touched by exactly one call each, so this
linearization realizes the per-record and counter effects of every
interleaving. `i` indexes the records of the whole run, so `oracle i` is
the settled outcome of the `i`-th submitted record's classification. -/
def processBatch (oracle : Nat → Except Unit AnalysisResult) :
    List FileRec → Nat → AppState → AppState
  | [], _, s => s
  | f :: rest, i, s => processBatch oracle rest (i + 1) (processOne (oracle i) f s)

/-- `CONCURRENCY_LIMIT` (line 342). -/
def CONCURRENCY_LIMIT : Nat := 5

/-- The window loop (lines 348-402): slices of `CONCURRENCY_LIMIT`
records; window N+1 starts only after window N fully settles. -/
def processWindows (oracle : Nat → Except Unit AnalysisResult) :
    List FileRec → Nat → AppState → AppState
  | [], _, s => s
  | f :: rest, i, s =>
    processWindows oracle (rest.drop (CONCURRENCY_LIMIT - 1))
      (i + CONCURRENCY_LIMIT)
      (processBatch oracle (f :: rest.take (CONCURRENCY_LIMIT - 1)) i s)
termination_by l => l.length
decreasing_by simp [List.length_drop]; omega

/-- How a run of `organizeFiles` ended, one case per `return` path. -/
inductive RunOutcome where
  | alreadyRunning
  | noPending
  | emptyFolders
  | ran
deriving DecidableEq

/-- The state mutations performed on the empty-folder-list abort path
(lines 331-339): by that point the run has already set
`isProcessing := true` (reverted before returning),
`totalToProcess := n` and `processedCount := 0`; `n` is the number of
pending records of the refused run. Statuses are untouched: the
`pending → processing` marking happens only after this check. -/
def organizeAbortEmptyFolders (s : AppState) (n : Nat) : AppState :=
  { s with isProcessing := false, totalToProcess := n, processedCount := 0 }

/-- `organizeFiles`: re-entrancy guard, pending snapshot, counter setup,
folder-list precondition, eager `pending → processing` marking, then the
windowed classification loop; finally the guard is cleared. -/
def organizeFiles (oracle : Nat → Except Unit AnalysisResult)
    (s : AppState) : AppState × RunOutcome :=
  if s.isProcessing then (s, .alreadyRunning)
  else
    let filesToProcess := s.files.filter (fun f => f.status == .pending)
    if filesToProcess.length == 0 then (s, .noPending)
    else
      let s1 := { s with
        isProcessing := true
        totalToProcess := filesToProcess.length
        processedCount := 0 }
      let folderList := foldersForSelect s1.folders
      if folderList.length == 0 then
        (organizeAbortEmptyFolders s filesToProcess.length, .emptyFolders)
      else
        let s2 := { s1 with
          files := s1.files.map (fun f =>
            if f.status == .pending then { f with status := .processing }
            else f) }
        let s3 := processWindows oracle filesToProcess 0 s2
        ({ s3 with isProcessing := false }, .ran)

/-! ## Script generator (`canDownloadScript` lines 457-463,
`generateAndDownloadScript` lines 476-568) -/

/-- The "do-not-move" sentinel folder value. -/
def DO_NOT_MOVE : String := "--do-not-move--"

/-- "A basic check for what might be an absolute path for Windows (C:\)
or Linux/Mac (/)": `path.includes(':') || path.startsWith('/')`. -/
def hasAbsolutePathMarker (p : String) : Bool :=
  p.data.contains ':' || p.data.head? == some '/'

/-- `canDownloadScript`: at least one analyzed record and both manual
paths pass the absolute-path check. -/
def canDownloadScript (files : List FileRec)
    (manualSourcePath manualDestinationPath : String) : Bool :=
  files.any (fun f => f.status == .done) &&
  hasAbsolutePathMarker manualSourcePath &&
  hasAbsolutePathMarker manualDestinationPath

/-- The deduplicated non-sentinel `finalFolder` values of the analyzed
records (lines 495-499); `filterMap` drops the records whose
`finalFolder` is unset, as the JS truthiness filter does. -/
def foldersToCreate (files : List FileRec) : List String :=
  jsSetDedup []
    (((files.filter (fun f => f.status == .done)).filterMap
        (fun f => f.finalFolder)).filter
      (fun folder => folder != "" && folder != "--do-not-move--"))

/-- `folderForScript` (line 504): separators to backslashes, then quote
doubling. -/
def folderForScript (folder : String) : List Char :=
  escQuotesL (slashToBackslashL folder.data)

/-- `fullDestFolderPath` (line 505), interpolated into the single-quoted
`$_folderPath = '...'` literal. -/
def fullDestFolderPath (destinationPath : String) (folder : String) :
    List Char :=
  escQuotesL destinationPath.data ++ "\\".data ++ folderForScript folder

/-- One folder-creation guard (lines 506-510). -/
def folderSnippet (destinationPath : String) (folder : String) : List Char :=
  "$_folderPath = \x27".data ++ fullDestFolderPath destinationPath folder ++
  "\x27\nif (-not (Test-Path -Path $_folderPath)) \x7b\n    Write-Host \"Creating folder: $_folderPath\"\n    New-Item -ItemType Directory -Path $_folderPath -Force | Out-Null\n\x7d\n".data

/-- The folder-creation section (lines 501-513). -/
def folderSection (files : List FileRec) (destinationPath : String) :
    List Char :=
  let fs := foldersToCreate files
  if fs.isEmpty then []
  else
    "# Create destination subfolders if they don\x27t exist\n".data ++
    (fs.map (folderSnippet destinationPath)).flatten ++ "\n".data

/-- `originalFileNameOnly` (lines 518-519): last segment of
`originalPath` split on separator runs, quote-doubled; falls back to the
quote-doubled `name` when that segment is empty. -/
def originalFileNameOnly (f : FileRec) : List Char :=
  let popped := (splitSepRunsL f.originalPath.data).getLastD []
  let escaped := escQuotesL popped
  if escaped.isEmpty then escQuotesL f.name.data else escaped

/-- `suggestedName` (lines 523-524): `file.suggestedName || ''`,
sanitized, then quote-doubled. -/
def suggestedNameEsc (f : FileRec) : List Char :=
  escQuotesL (sanitizeFilename (match f.suggestedName with
    | some s => s
    | none => "")).data

/-- `newName` (line 526). -/
def newNameOf (f : FileRec) : List Char :=
  if f.useNewName && !(suggestedNameEsc f).isEmpty then suggestedNameEsc f
  else originalFileNameOnly f

/-- `sourceFilePath` (line 521); `sourceFilePathForRename` (line 542) is
textually the same expression in the source and is shared here. -/
def sourceFilePathOf (sourcePath : String) (f : FileRec) : List Char :=
  escQuotesL sourcePath.data ++ "\\".data ++ originalFileNameOnly f

/-- `destFolderForScript` (line 530). -/
def destFolderForScriptOf (d : String) : List Char :=
  escQuotesL (slashToBackslashL d.data)

/-- `destinationFilePath` (line 531). -/
def destinationFilePathOf (destinationPath : String) (d : String)
    (f : FileRec) : List Char :=
  escQuotesL destinationPath.data ++ "\\".data ++ destFolderForScriptOf d ++
  "\\".data ++ newNameOf f

/-- The guarded move statement (lines 533-540). -/
def moveSnippet (sourcePath destinationPath : String) (d : String)
    (f : FileRec) : List Char :=
  "$_sourceFile = \x27".data ++ sourceFilePathOf sourcePath f ++
  "\x27\n$_destFile = \x27".data ++
  destinationFilePathOf destinationPath d f ++
  "\x27\nif (Test-Path -Path $_sourceFile) \x7b\n    Write-Host \"Moving \x27".data ++
  originalFileNameOnly f ++ "\x27 to \x27".data ++
  destFolderForScriptOf d ++ "\\".data ++ newNameOf f ++
  "\x27\"\n    Move-Item -Path $_sourceFile -Destination $_destFile -Force\n\x7d else \x7b\n    Write-Host \"WARNING: Source file not found, skipping: \x27".data ++
  originalFileNameOnly f ++
  "\x27\" -ForegroundColor Yellow\n\x7d\n".data

/-- The guarded in-place rename statement (lines 543-550). -/
def renameSnippet (sourcePath : String) (f : FileRec) : List Char :=
  "$_sourceFile = \x27".data ++ sourceFilePathOf sourcePath f ++
  "\x27\n$_newName = \x27".data ++ newNameOf f ++
  "\x27\nif (Test-Path -Path $_sourceFile) \x7b\n    Write-Host \"Renaming \x27".data ++
  originalFileNameOnly f ++
  "\x27 to \x27$_newName\x27 in the source folder\"\n    Rename-Item -Path $_sourceFile -NewName $_newName\n\x7d else \x7b\n    Write-Host \"WARNING: Source file not found, skipping rename for: \x27".data ++
  originalFileNameOnly f ++
  "\x27\" -ForegroundColor Yellow\n\x7d\n".data

/-- The per-record contribution to the script (lines 529-551): a guarded
move when `finalFolder` is truthy and not the sentinel; otherwise a
guarded rename when a new name is requested and differs; otherwise
nothing. -/
def fileSnippet (sourcePath destinationPath : String) (f : FileRec) :
    List Char :=
  match f.finalFolder with
  | some d =>
    if d != "" && d != "--do-not-move--" then
      moveSnippet sourcePath destinationPath d f
    else if f.useNewName && newNameOf f != originalFileNameOnly f then
      renameSnippet sourcePath f
    else []
  | none =>
    if f.useNewName && newNameOf f != originalFileNameOnly f then
      renameSnippet sourcePath f
    else []

/-- The per-file section (lines 515-552). -/
def fileSection (files : List FileRec)
    (sourcePath destinationPath : String) : List Char :=
  ((files.filter (fun f => f.status == .done)).map
    (fileSnippet sourcePath destinationPath)).flatten

/-- The instructions header (lines 483-493). -/
def scriptHeader : String :=
  "# AI File Organizer - PowerShell Script\n# -------------------------------------\n# INSTRUCTIONS:\n# 1. This script uses the absolute paths you provided. You can run it from anywhere.\n# 2. To run, right-click this file and select \"Run with PowerShell\".\n#\n# NOTE: If you get an error about scripts being disabled, run this command in PowerShell once:\n# Set-ExecutionPolicy -Scope CurrentUser -ExecutionPolicy RemoteSigned\n# (And press \x27Y\x27 and Enter to confirm)\n# -------------------------------------\n\n"

/-- `generateAndDownloadScript` as the pure text producer: `none` models
the guard `return` (no script); `some` carries the full script text. The
download step wraps the text in a BOM-prefixed blob and is pure DOM glue,
not modelled. -/
def generateAndDownloadScript (files : List FileRec)
    (manualSourcePath manualDestinationPath : String) : Option String :=
  let analyzedFiles := files.filter (fun f => f.status == .done)
  let sourcePath := jsTrim manualSourcePath
  let destinationPath := jsTrim manualDestinationPath
  if analyzedFiles.length == 0 || sourcePath == "" || destinationPath == ""
  then none
  else some ⟨scriptHeader.data ++
    folderSection files destinationPath ++
    "# Process files\n".data ++
    fileSection files sourcePath destinationPath ++
    "\n".data ++
    "Write-Host \"Organization complete.\" -ForegroundColor Green\n".data ++
    "Read-Host \"Press Enter to exit...\"\n".data⟩

/-- Modelled from the spec: the component template (`app.component.html`,
which is not under `src/`) wires the download button to
`generateAndDownloadScript` gated on `canDownloadScript` ("Preconditions:
both path arguments must be non-empty and look like absolute paths ...;
if unmet, generation is refused (no script produced)"). -/
def downloadScript (files : List FileRec)
    (manualSourcePath manualDestinationPath : String) : Option String :=
  if canDownloadScript files manualSourcePath manualDestinationPath
  then generateAndDownloadScript files manualSourcePath manualDestinationPath
  else none

/-! ## The single-quoted literals of the generated script -/

/-- The contents the generator places between the single-quote pairs it
emits for one analyzed record: `$_sourceFile = '...'` and
`$_destFile = '...'` in the move branch, `$_sourceFile = '...'` and
`$_newName = '...'` in the rename branch. -/
def sqLiteralsOfFile (sourcePath destinationPath : String) (f : FileRec) :
    List (List Char) :=
  match f.finalFolder with
  | some d =>
    if d != "" && d != "--do-not-move--" then
      [sourceFilePathOf sourcePath f, destinationFilePathOf destinationPath d f]
    else if f.useNewName && newNameOf f != originalFileNameOnly f then
      [sourceFilePathOf sourcePath f, newNameOf f]
    else []
  | none =>
    if f.useNewName && newNameOf f != originalFileNameOnly f then
      [sourceFilePathOf sourcePath f, newNameOf f]
    else []

/-- Every string the generator interpolates inside a single-quoted
literal of the script: the `$_folderPath = '...'` contents of the
folder-creation section followed by the per-record literals. -/
def sqLiterals (files : List FileRec)
    (sourcePath destinationPath : String) : List (List Char) :=
  (foldersToCreate files).map (fullDestFolderPath destinationPath) ++
  ((files.filter (fun f => f.status == .done)).map
    (sqLiteralsOfFile sourcePath destinationPath)).flatten

/-- Scan state: `even` records whether the current run of single quotes
seen so far has even length. -/
def sqdAux : List Char → Bool → Bool
  | [], even => even
  | c :: rest, even =>
    if c == '\x27' then sqdAux rest (!even)
    else even && sqdAux rest true

/-- True iff every maximal run of single quotes in `l` has even length:
each quote is part of a doubled pair, so `l` placed between single quotes
is one well-formed PowerShell string literal with no unescaped quote. -/
def singleQuotesDoubled (l : List Char) : Bool := sqdAux l true

/-! ## Lemmas: quote escaping -/

theorem sqdAux_cons_quote (r : List Char) (e : Bool) :
    sqdAux ('\x27' :: r) e = sqdAux r (!e) := by
  simp [sqdAux]

theorem sqdAux_cons_other {c : Char} (hc : c ≠ '\x27') (r : List Char)
    (e : Bool) : sqdAux (c :: r) e = (e && sqdAux r true) := by
  simp [sqdAux, hc]

theorem sqdAux_append (b : List Char) :
    ∀ (a : List Char) (e : Bool), sqdAux a e = true → sqdAux b true = true →
      sqdAux (a ++ b) e = true := by
  intro a
  induction a with
  | nil =>
    intro e ha hb
    simp only [sqdAux] at ha
    simpa [ha] using hb
  | cons c r ih =>
    intro e ha hb
    by_cases hc : c = '\x27'
    · subst hc
      rw [List.cons_append, sqdAux_cons_quote] at *
      exact ih (!e) ha hb
    · rw [List.cons_append, sqdAux_cons_other hc, Bool.and_eq_true] at *
      exact ⟨ha.1, ih true ha.2 hb⟩

/-- Quote-doubled contents stay quote-doubled under concatenation. -/
theorem singleQuotesDoubled_append {a b : List Char}
    (ha : singleQuotesDoubled a = true) (hb : singleQuotesDoubled b = true) :
    singleQuotesDoubled (a ++ b) = true :=
  sqdAux_append b a true ha hb

/-- The output of `.replace(/'/g, "''")` never contains an unpaired
single quote. -/
theorem singleQuotesDoubled_escQuotesL (l : List Char) :
    singleQuotesDoubled (escQuotesL l) = true := by
  induction l with
  | nil => rfl
  | cons c r ih =>
    unfold singleQuotesDoubled at *
    by_cases hc : c = '\x27'
    · subst hc
      simp only [escQuotesL, beq_self_eq_true, if_true, sqdAux_cons_quote,
        Bool.not_true, Bool.not_false]
      exact ih
    · have hcb : (c == '\x27') = false := by simpa using hc
      rw [show escQuotesL (c :: r) = c :: escQuotesL r from by
        simp [escQuotesL, hcb]]
      rw [sqdAux_cons_other hc, Bool.true_and]
      exact ih

theorem singleQuotesDoubled_backslash : singleQuotesDoubled "\\".data = true := by
  decide

theorem singleQuotesDoubled_fullDestFolderPath (destinationPath folder : String) :
    singleQuotesDoubled (fullDestFolderPath destinationPath folder) = true :=
  singleQuotesDoubled_append
    (singleQuotesDoubled_append (singleQuotesDoubled_escQuotesL _)
      singleQuotesDoubled_backslash)
    (singleQuotesDoubled_escQuotesL _)

theorem singleQuotesDoubled_originalFileNameOnly (f : FileRec) :
    singleQuotesDoubled (originalFileNameOnly f) = true := by
  by_cases h :
      (escQuotesL ((splitSepRunsL f.originalPath.data).getLastD [])).isEmpty = true
  · simp only [originalFileNameOnly, h, if_true]
    exact singleQuotesDoubled_escQuotesL _
  · simp only [originalFileNameOnly, h, if_false]
    exact singleQuotesDoubled_escQuotesL _

theorem singleQuotesDoubled_newNameOf (f : FileRec) :
    singleQuotesDoubled (newNameOf f) = true := by
  unfold newNameOf
  split
  · exact singleQuotesDoubled_escQuotesL _
  · exact singleQuotesDoubled_originalFileNameOnly f

theorem singleQuotesDoubled_sourceFilePathOf (sourcePath : String)
    (f : FileRec) : singleQuotesDoubled (sourceFilePathOf sourcePath f) = true :=
  singleQuotesDoubled_append
    (singleQuotesDoubled_append (singleQuotesDoubled_escQuotesL _)
      singleQuotesDoubled_backslash)
    (singleQuotesDoubled_originalFileNameOnly f)

theorem singleQuotesDoubled_destinationFilePathOf (destinationPath d : String)
    (f : FileRec) :
    singleQuotesDoubled (destinationFilePathOf destinationPath d f) = true :=
  singleQuotesDoubled_append
    (singleQuotesDoubled_append
      (singleQuotesDoubled_append
        (singleQuotesDoubled_append (singleQuotesDoubled_escQuotesL _)
          singleQuotesDoubled_backslash)
        (singleQuotesDoubled_escQuotesL _))
      singleQuotesDoubled_backslash)
    (singleQuotesDoubled_newNameOf f)

theorem singleQuotesDoubled_of_mem_sqLiteralsOfFile
    (sourcePath destinationPath : String) (f : FileRec) (l : List Char)
    (hl : l ∈ sqLiteralsOfFile sourcePath destinationPath f) :
    singleQuotesDoubled l = true := by
  have hpair : ∀ x y : List Char, l ∈ [x, y] → l = x ∨ l = y := by
    intro x y h
    rcases List.mem_cons.1 h with h | h
    · exact Or.inl h
    · rcases List.mem_cons.1 h with h | h
      · exact Or.inr h
      · exact absurd h (List.not_mem_nil l)
  unfold sqLiteralsOfFile at hl
  split at hl
  · split at hl
    · rcases hpair _ _ hl with rfl | rfl
      · exact singleQuotesDoubled_sourceFilePathOf _ _
      · exact singleQuotesDoubled_destinationFilePathOf _ _ _
    · split at hl
      · rcases hpair _ _ hl with rfl | rfl
        · exact singleQuotesDoubled_sourceFilePathOf _ _
        · exact singleQuotesDoubled_newNameOf _
      · exact absurd hl (List.not_mem_nil l)
  · split at hl
    · rcases hpair _ _ hl with rfl | rfl
      · exact singleQuotesDoubled_sourceFilePathOf _ _
      · exact singleQuotesDoubled_newNameOf _
    · exact absurd hl (List.not_mem_nil l)

/-- Claim C1: for every set of participating records and every
source/destination path pair, every path or file/folder name that the
script generator interpolates inside a single-quoted literal of the
produced PowerShell text has each embedded single-quote character
doubled, so no single-quoted literal of the generated script contains an
unescaped single quote. -/
theorem C1_single_quoted_literals_escaped
    (files : List FileRec) (sourcePath destinationPath : String)
    (l : List Char) (hl : l ∈ sqLiterals files sourcePath destinationPath) :
    singleQuotesDoubled l = true := by
  unfold sqLiterals at hl
  rcases List.mem_append.1 hl with h | h
  · rcases List.mem_map.1 h with ⟨folder, _, rfl⟩
    exact singleQuotesDoubled_fullDestFolderPath _ _
  · rcases List.mem_flatten.1 h with ⟨L, hL, hlL⟩
    rcases List.mem_map.1 hL with ⟨f, _, rfl⟩
    exact singleQuotesDoubled_of_mem_sqLiteralsOfFile _ _ _ _ hlL

/-- A concrete analyzed record whose destination folder, original file
name and suggested name all embed single quotes. -/
def sampleDoneRec : FileRec :=
  { id := "f1"
    name := "o\x27brien (old).pdf"
    type := "application/pdf"
    size := 10
    originalPath := "Scan/o\x27brien (old).pdf"
    status := .done
    suggestion := some "Invoices"
    finalFolder := some "Bob\x27s/Sub"
    tags := []
    summary := some "sum"
    suggestedName := some "invoice-2024.pdf"
    useNewName := true
    errorMessage := none }

/-- Witness for C1: the `$_folderPath` literal produced for
`sampleDoneRec` is a member of the interpolated-literal list and is
quote-doubled. -/
theorem C1_single_quoted_literals_escaped_witness :
    "C:\\Out\\Bob\x27\x27s\\Sub".data ∈
        sqLiterals [sampleDoneRec] "C:\\In" "C:\\Out" ∧
      singleQuotesDoubled "C:\\Out\\Bob\x27\x27s\\Sub".data = true :=
  ⟨by decide,
    C1_single_quoted_literals_escaped [sampleDoneRec] "C:\\In" "C:\\Out" _
      (by decide)⟩

/-! ## Lemmas: the sanitizers (claim C2) -/

/-- The behaviour claimed by the spec for folder sanitization: the input
with exactly the characters `< > : " | ? *` deleted and nothing else
changed. -/
def specFolderDeleteOnly (x : String) : String :=
  ⟨x.data.filter (fun c => !folderIllegalChar c)⟩

/-- The behaviour claimed by the spec for filename sanitization: the
input with exactly the characters `< > : " | ? * / \` deleted and
nothing else changed. -/
def specFilenameDeleteOnly (x : String) : String :=
  ⟨x.data.filter (fun c => !filenameIllegalChar c)⟩

theorem collapseSeps_mem :
    ∀ (l : List Char) (c : Char), c ∈ collapseSeps l → c = '/' ∨ c ∈ l := by
  intro l
  induction l using collapseSeps.induct with
  | case1 => intro c hc; exact absurd hc (List.not_mem_nil c)
  | case2 c hs =>
    intro d hd
    simp only [collapseSeps, hs, if_true] at hd
    rcases List.mem_singleton.1 hd with rfl
    exact Or.inl rfl
  | case3 c hs =>
    intro d hd
    simp only [collapseSeps, hs, if_false] at hd
    exact Or.inr hd
  | case4 c1 c2 rest h1 h2 ih =>
    intro d hd
    simp only [collapseSeps, h1, h2, if_true] at hd
    rcases ih d hd with h | h
    · exact Or.inl h
    · exact Or.inr (List.mem_cons_of_mem c1 h)
  | case5 c1 c2 rest h1 h2 ih =>
    intro d hd
    simp only [collapseSeps, h1, h2, if_true, if_false] at hd
    rcases List.mem_cons.1 hd with rfl | h
    · exact Or.inl rfl
    · rcases ih d h with h | h
      · exact Or.inl h
      · exact Or.inr (List.mem_cons_of_mem c1 h)
  | case6 c1 c2 rest h1 ih =>
    intro d hd
    simp only [collapseSeps, h1, if_false] at hd
    rcases List.mem_cons.1 hd with rfl | h
    · exact Or.inr (List.mem_cons_self _ _)
    · rcases ih d h with h | h
      · exact Or.inl h
      · exact Or.inr (List.mem_cons_of_mem c1 h)

theorem collapseSeps_no_backslash :
    ∀ l : List Char, '\\' ∉ collapseSeps l := by
  intro l
  induction l using collapseSeps.induct with
  | case1 => exact List.not_mem_nil _
  | case2 c hs => simp [collapseSeps, hs]
  | case3 c hs =>
    simp only [collapseSeps, hs, if_false]
    intro hd
    rcases List.mem_singleton.1 hd with rfl
    simp [isSep] at hs
  | case4 c1 c2 rest h1 h2 ih =>
    simpa only [collapseSeps, h1, h2, if_true] using ih
  | case5 c1 c2 rest h1 h2 ih =>
    simp only [collapseSeps, h1, h2, if_true, if_false]
    intro hd
    rcases List.mem_cons.1 hd with h | h
    · exact absurd h.symm (by decide)
    · exact ih h
  | case6 c1 c2 rest h1 ih =>
    simp only [collapseSeps, h1, if_false]
    intro hd
    rcases List.mem_cons.1 hd with h | h
    · rw [← h] at h1; simp [isSep] at h1
    · exact ih h

/-- Claim C2 is refuted: `sanitizeFolderPath` also rewrites `\` to `/`
(separator-run collapsing), and `sanitizeFilename` also strips leading
whitespace; neither output is the input with only the claimed character
deletions. -/
theorem C2_counterexample :
    sanitizeFolderPath "a\\b" ≠ specFolderDeleteOnly "a\\b" ∧
      sanitizeFilename " a" ≠ specFilenameDeleteOnly " a" := by
  decide

/-- Claim C2 as amended: filename sanitization trims JS whitespace from
both ends and then deletes exactly `< > : " / \ | ? *`; folder
sanitization trims, deletes exactly `< > : " | ? *`, and additionally
rewrites every maximal run of `/` and `\` to a single `/` — so every
character of its output is a legal non-backslash character. -/
theorem C2_sanitizers_trim_delete_collapse (x : String) :
    (sanitizeFilename x).data =
        (jsTrimL x.data).filter (fun c => !filenameIllegalChar c) ∧
      (sanitizeFolderPath x).data =
        collapseSeps ((jsTrimL x.data).filter (fun c => !folderIllegalChar c)) ∧
      ∀ c ∈ (sanitizeFolderPath x).data,
        folderIllegalChar c = false ∧ c ≠ '\\' := by
  have hfile : (sanitizeFilename x).data =
      (jsTrimL x.data).filter (fun c => !filenameIllegalChar c) := by
    by_cases hx : x = ""
    · subst hx; rfl
    · have hxb : (x == "") = false := by simpa using hx
      simp [sanitizeFilename, hxb]
  have hfolder : (sanitizeFolderPath x).data =
      collapseSeps ((jsTrimL x.data).filter (fun c => !folderIllegalChar c)) := by
    by_cases hx : x = ""
    · subst hx; rfl
    · have hxb : (x == "") = false := by simpa using hx
      simp [sanitizeFolderPath, hxb]
  refine ⟨hfile, hfolder, ?_⟩
  intro c hc
  rw [hfolder] at hc
  constructor
  · rcases collapseSeps_mem _ c hc with rfl | h
    · decide
    · have := (List.mem_filter.1 h).2
      simpa using this
  · intro h
    subst h
    exact collapseSeps_no_backslash _ hc

/-- Witness for the amended C2: at the concrete input `"a\b"` the folder
sanitizer's output contains `'a'`, which is legal and not a backslash. -/
theorem C2_sanitizers_trim_delete_collapse_witness :
    'a' ∈ (sanitizeFolderPath "a\\b").data ∧
      folderIllegalChar 'a' = false ∧ 'a' ≠ '\\' :=
  ⟨by decide,
    (C2_sanitizers_trim_delete_collapse "a\\b").2.2 'a' (by decide)⟩

/-! ## Lemmas: the sort order -/

theorem lebL_total : ∀ a b : List Char, lebL a b = true ∨ lebL b a = true := by
  intro a
  induction a with
  | nil => intro b; exact Or.inl rfl
  | cons x as ih =>
    intro b
    cases b with
    | nil => exact Or.inr rfl
    | cons y bs =>
      simp only [lebL]
      rcases Nat.lt_trichotomy x.toNat y.toNat with h | h | h
      · left; simp [h]
      · have h1 : ¬x.toNat < y.toNat := by omega
        have h2 : ¬y.toNat < x.toNat := by omega
        simpa [h1, h2] using ih bs
      · right; simp [h]

theorem lebL_trans : ∀ a b c : List Char,
    lebL a b = true → lebL b c = true → lebL a c = true := by
  intro a
  induction a with
  | nil => intro b c _ _; rfl
  | cons x as ih =>
    intro b c hab hbc
    cases b with
    | nil => simp [lebL] at hab
    | cons y bs =>
      cases c with
      | nil => simp [lebL] at hbc
      | cons z cs =>
        simp only [lebL] at hab hbc ⊢
        by_cases hxy : x.toNat < y.toNat
        · by_cases hyz : y.toNat < z.toNat
          · have h : x.toNat < z.toNat := by omega
            simp [h]
          · by_cases hzy : z.toNat < y.toNat
            · simp [hyz, hzy] at hbc
            · have h : x.toNat < z.toNat := by omega
              simp [h]
        · by_cases hyx : y.toNat < x.toNat
          · simp [hxy, hyx] at hab
          · simp only [hxy, hyx, if_false] at hab
            by_cases hyz : y.toNat < z.toNat
            · have h : x.toNat < z.toNat := by omega
              simp [h]
            · by_cases hzy : z.toNat < y.toNat
              · simp [hyz, hzy] at hbc
              · simp only [hyz, hzy, if_false] at hbc
                have h1 : ¬x.toNat < z.toNat := by omega
                have h2 : ¬z.toNat < x.toNat := by omega
                simpa [h1, h2] using ih bs cs hab hbc

instance : IsTotal String jsLe := ⟨fun a b => lebL_total a.data b.data⟩

instance : IsTrans String jsLe :=
  ⟨fun a b c => lebL_trans a.data b.data c.data⟩

/-! ## Lemmas: the selectable folder list -/

theorem jsSetDedup_subset :
    ∀ (l seen : List String) (x : String), x ∈ jsSetDedup seen l → x ∈ l := by
  intro l
  induction l with
  | nil => intro seen x hx; exact absurd hx (List.not_mem_nil x)
  | cons y ys ih =>
    intro seen x hx
    unfold jsSetDedup at hx
    by_cases hy : y ∈ seen
    · simp only [hy, if_true] at hx
      exact List.mem_cons_of_mem y (ih seen x hx)
    · simp only [hy, if_false] at hx
      rcases List.mem_cons.1 hx with rfl | hx
      · exact List.mem_cons_self x ys
      · exact List.mem_cons_of_mem y (ih (y :: seen) x hx)

theorem jsSetDedup_not_mem_seen :
    ∀ (l seen : List String) (x : String),
      x ∈ jsSetDedup seen l → x ∉ seen := by
  intro l
  induction l with
  | nil => intro seen x hx; exact absurd hx (List.not_mem_nil x)
  | cons y ys ih =>
    intro seen x hx
    unfold jsSetDedup at hx
    by_cases hy : y ∈ seen
    · simp only [hy, if_true] at hx
      exact ih seen x hx
    · simp only [hy, if_false] at hx
      rcases List.mem_cons.1 hx with rfl | hx
      · exact hy
      · intro hmem
        exact ih (y :: seen) x hx (List.mem_cons_of_mem y hmem)

theorem jsSetDedup_nodup : ∀ (l seen : List String), (jsSetDedup seen l).Nodup := by
  intro l
  induction l with
  | nil => intro seen; exact List.nodup_nil
  | cons y ys ih =>
    intro seen
    unfold jsSetDedup
    by_cases hy : y ∈ seen
    · simpa only [hy, if_true] using ih seen
    · simp only [hy, if_false]
      refine List.nodup_cons.2 ⟨?_, ih (y :: seen)⟩
      intro hmem
      exact jsSetDedup_not_mem_seen ys (y :: seen) y hmem
        (List.mem_cons_self y seen)

theorem jsSetDedup_eq_self :
    ∀ (l seen : List String), l.Nodup → (∀ x ∈ l, x ∉ seen) →
      jsSetDedup seen l = l := by
  intro l
  induction l with
  | nil => intro seen _ _; rfl
  | cons y ys ih =>
    intro seen hnd hdis
    unfold jsSetDedup
    have hy : y ∉ seen := hdis y (List.mem_cons_self y ys)
    simp only [hy, if_false]
    rw [ih (y :: seen) (List.nodup_cons.1 hnd).2]
    intro x hx
    rcases List.nodup_cons.1 hnd with ⟨hyni, _⟩
    intro hmem
    rcases List.mem_cons.1 hmem with rfl | hmem
    · exact hyni hx
    · exact hdis x (List.mem_cons_of_mem y hx) hmem

/-- The pre-sort list underlying `foldersForSelect`. -/
def foldersWithMisc (folders : String) : List String :=
  let uniqueFolders := jsSetDedup [] (parseFolderConfig folders)
  if (uniqueFolders.find? (fun f => jsToLower f == "miscellaneous")).isSome
  then uniqueFolders
  else uniqueFolders ++ ["Miscellaneous"]

theorem foldersForSelect_eq (folders : String) :
    foldersForSelect folders = List.insertionSort jsLe (foldersWithMisc folders) := rfl

theorem foldersWithMisc_nodup (folders : String) :
    (foldersWithMisc folders).Nodup := by
  unfold foldersWithMisc
  by_cases h :
      ((jsSetDedup [] (parseFolderConfig folders)).find?
        (fun f => jsToLower f == "miscellaneous")).isSome = true
  · simpa only [h, if_true] using jsSetDedup_nodup _ _
  · simp only [h, if_false]
    refine List.Nodup.append (jsSetDedup_nodup _ _) (List.nodup_singleton _) ?_
    intro x hx hxm
    rcases List.mem_singleton.1 hxm with rfl
    exact h (List.find?_isSome.2 ⟨"Miscellaneous", hx, by decide⟩)

theorem foldersWithMisc_misc (folders : String) :
    ∃ e ∈ foldersWithMisc folders, jsToLower e = "miscellaneous" := by
  unfold foldersWithMisc
  by_cases h :
      ((jsSetDedup [] (parseFolderConfig folders)).find?
        (fun f => jsToLower f == "miscellaneous")).isSome = true
  · rcases Option.isSome_iff_exists.1 h with ⟨m, hm⟩
    refine ⟨m, ?_, ?_⟩
    · simpa only [h, if_true] using List.mem_of_find?_eq_some hm
    · have := List.find?_some hm
      simpa using this
  · refine ⟨"Miscellaneous", ?_, by decide⟩
    simp only [h, if_false]
    exact List.mem_append_right _ (List.mem_singleton.2 rfl)

theorem foldersForSelect_nodup (folders : String) :
    (foldersForSelect folders).Nodup := by
  rw [foldersForSelect_eq]
  exact (List.perm_insertionSort jsLe (foldersWithMisc folders)).symm.nodup
    (foldersWithMisc_nodup folders)

theorem foldersForSelect_sorted (folders : String) :
    List.Pairwise jsLe (foldersForSelect folders) := by
  rw [foldersForSelect_eq]
  exact List.sorted_insertionSort jsLe (foldersWithMisc folders)

theorem foldersForSelect_misc (folders : String) :
    ∃ e ∈ foldersForSelect folders, jsToLower e = "miscellaneous" := by
  rcases foldersWithMisc_misc folders with ⟨e, he, hlow⟩
  refine ⟨e, ?_, hlow⟩
  rw [foldersForSelect_eq]
  exact (List.mem_insertionSort jsLe).2 he

theorem foldersForSelect_ne_nil (folders : String) :
    foldersForSelect folders ≠ [] := by
  rcases foldersForSelect_misc folders with ⟨e, he, _⟩
  intro h
  rw [h] at he
  exact List.not_mem_nil e he

/-- Claim C3 is refuted as stated: deduplication is by exact string
equality (`new Set`), not case-insensitive — the configuration `"a, A"`
yields a selectable list containing both `"a"` and `"A"`, two entries
that differ only in case. -/
theorem C3_counterexample :
    "a" ∈ foldersForSelect "a, A" ∧ "A" ∈ foldersForSelect "a, A" ∧
      "a" ≠ "A" ∧ jsToLower "a" = jsToLower "A" := by
  decide

/-- Claim C3 as amended: for every folders configuration string the
derived selectable list has no duplicate entries (exact-equality
deduplication, not case-insensitive), is sorted in the generator's
lexicographic code-unit order, and contains an entry equal to
`"Miscellaneous"` up to ASCII case. -/
theorem C3_selectable_list_invariants (folders : String) :
    (foldersForSelect folders).Nodup ∧
      List.Pairwise jsLe (foldersForSelect folders) ∧
      ∃ e ∈ foldersForSelect folders, jsToLower e = "miscellaneous" :=
  ⟨foldersForSelect_nodup folders, foldersForSelect_sorted folders,
    foldersForSelect_misc folders⟩

/-- Claim C10: for every folders configuration string — including the
empty string and strings of only separators — `foldersForSelect`
returns a non-empty list (a `Miscellaneous` entry is appended whenever no
case-insensitive match exists), so the empty-folder-list abort branch of
`organizeFiles` is unreachable: no run ever ends with the
`emptyFolders` outcome. -/
theorem C10_folder_list_never_empty (folders : String)
    (oracle : Nat → Except Unit AnalysisResult) (s : AppState) :
    foldersForSelect folders ≠ [] ∧
      (organizeFiles oracle s).2 ≠ RunOutcome.emptyFolders := by
  refine ⟨foldersForSelect_ne_nil folders, ?_⟩
  intro h
  simp only [organizeFiles] at h
  split at h
  · simp at h
  · split at h
    · simp at h
    · split at h
      · rename_i hlen
        exact absurd (List.length_eq_zero.1 (by simpa using hlen))
          (foldersForSelect_ne_nil _)
      · simp at h

/-! ## Lemmas: folder reconciliation (claim C5) -/

theorem joinWithL_last_suffix (sep : List Char) :
    ∀ (gs : List (List Char)) (g : List Char),
      g <:+ joinWithL sep (gs ++ [g]) := by
  intro gs
  induction gs with
  | nil => intro g; exact List.suffix_refl g
  | cons g0 gs' ih =>
    intro g
    cases gs' with
    | nil =>
      show g <:+ joinWithL sep [g0, g]
      have heq : joinWithL sep [g0, g] = (g0 ++ sep) ++ g := rfl
      rw [heq]
      exact List.suffix_append (g0 ++ sep) g
    | cons g1 gs'' =>
      have heq : joinWithL sep ((g0 :: g1 :: gs'') ++ [g]) =
          (g0 ++ sep) ++ joinWithL sep ((g1 :: gs'') ++ [g]) := rfl
      rw [heq]
      exact (ih g).trans
        (List.suffix_append (g0 ++ sep) (joinWithL sep ((g1 :: gs'') ++ [g])))

/-- The merge callback does not touch the configuration when the current
configuration (as re-read at update time) already has a case-insensitive
match — in particular a match added concurrently by a sibling call. -/
theorem mergeFolders_of_match (current ff : String)
    (h : ∃ e ∈ parseFolderConfig current, jsToLower e = jsToLower ff) :
    mergeFolders current ff = current := by
  unfold mergeFolders
  rcases h with ⟨e, he, hlow⟩
  have : ((parseFolderConfig current).find?
      (fun f => jsToLower f == jsToLower ff)).isSome = true :=
    List.find?_isSome.2 ⟨e, he, by simpa using hlow⟩
  simp only [this, if_true]

/-- When no case-insensitive match exists at update time, the merge
appends the new value to the (re-sanitized) configuration: the new
configuration string ends with the merged value. -/
theorem mergeFolders_appends (current ff : String)
    (h : ∀ e ∈ parseFolderConfig current, jsToLower e ≠ jsToLower ff) :
    ff.data <:+ (mergeFolders current ff).data := by
  unfold mergeFolders
  have hnone : ((parseFolderConfig current).find?
      (fun f => jsToLower f == jsToLower ff)).isSome = false := by
    rw [Bool.eq_false_iff]
    intro hs
    rcases List.find?_isSome.1 hs with ⟨e, he, hbeq⟩
    exact h e he (by simpa using hbeq)
  simp only [hnone, Bool.false_eq_true, if_false]
  show ff.data <:+ (joinCommaSpace (parseFolderConfig current ++ [ff])).data
  have : (joinCommaSpace (parseFolderConfig current ++ [ff])).data =
      joinWithL [',', ' ']
        ((parseFolderConfig current).map String.data ++ [ff.data]) := by
    simp [joinCommaSpace]
  rw [this]
  exact joinWithL_last_suffix [',', ' '] _ ff.data

/-- `finalFolder` of any record matched by the keyed update. -/
theorem finalFolder_of_mem_idUpdate (files : List FileRec) (fid : String)
    (upd : FileRec → FileRec) (v : Option String)
    (hupd : ∀ f, (upd f).finalFolder = v) (g : FileRec)
    (hg : g ∈ files.map (fun f => if f.id == fid then upd f else f))
    (hid : g.id = fid) : g.finalFolder = v := by
  rcases List.mem_map.1 hg with ⟨f0, _, rfl⟩
  by_cases hf : f0.id = fid
  · simp only [hf, beq_self_eq_true, if_true]
    exact hupd f0
  · have hfb : (f0.id == fid) = false := by simpa using hf
    rw [hfb] at hid ⊢
    simp only [Bool.false_eq_true, if_false] at hid ⊢
    exact absurd hid hf

/-- Claim C5: on a classifier success whose sanitized folder matches the
current taxonomy case-insensitively, the record adopts the existing
entry's casing and the configuration is untouched; with no match, the
configuration goes through `mergeFolders` and the record's `finalFolder`
is the sanitized value verbatim; and `mergeFolders` itself re-checks the
configuration current at update time, so a case-insensitive match added
concurrently by a sibling call suppresses the append (idempotent merge),
while a genuinely new value is appended. -/
theorem C5_folder_merge_canonicalization
    (s : AppState) (file : FileRec) (result : AnalysisResult) :
    (∀ m, (foldersForSelect s.folders).find?
          (fun f =>
            jsToLower f == jsToLower (sanitizeFolderPath result.folder)) =
          some m →
        m ∈ foldersForSelect s.folders ∧
          jsToLower m = jsToLower (sanitizeFolderPath result.folder) ∧
          (processOne (Except.ok result) file s).folders = s.folders ∧
          ∀ g ∈ (processOne (Except.ok result) file s).files,
            g.id = file.id → g.finalFolder = some m) ∧
      ((foldersForSelect s.folders).find?
          (fun f =>
            jsToLower f == jsToLower (sanitizeFolderPath result.folder)) =
          none →
        (processOne (Except.ok result) file s).folders =
            mergeFolders s.folders (sanitizeFolderPath result.folder) ∧
          ∀ g ∈ (processOne (Except.ok result) file s).files,
            g.id = file.id →
              g.finalFolder = some (sanitizeFolderPath result.folder)) ∧
      (∀ current ff : String,
        (∃ e ∈ parseFolderConfig current, jsToLower e = jsToLower ff) →
          mergeFolders current ff = current) ∧
      (∀ current ff : String,
        (∀ e ∈ parseFolderConfig current, jsToLower e ≠ jsToLower ff) →
          ff.data <:+ (mergeFolders current ff).data) := by
  refine ⟨?_, ?_, mergeFolders_of_match, mergeFolders_appends⟩
  · intro m hfind
    refine ⟨List.mem_of_find?_eq_some hfind, ?_, ?_, ?_⟩
    · have := List.find?_some hfind
      simpa using this
    · simp only [processOne, hfind]
    · intro g hg hid
      simp only [processOne, hfind] at hg
      exact finalFolder_of_mem_idUpdate s.files file.id _ (some m)
        (fun f => rfl) g hg hid
  · intro hfind
    refine ⟨?_, ?_⟩
    · simp only [processOne, hfind]
    · intro g hg hid
      simp only [processOne, hfind] at hg
      exact finalFolder_of_mem_idUpdate s.files file.id _
        (some (sanitizeFolderPath result.folder)) (fun f => rfl) g hg hid

/-- A concrete pending record. -/
def samplePendingRec : FileRec :=
  { id := "p1"
    name := "a.pdf"
    type := "application/pdf"
    size := 1
    originalPath := "ToSort/a.pdf"
    status := .pending
    suggestion := none
    finalFolder := none
    tags := []
    summary := none
    suggestedName := none
    useNewName := true
    errorMessage := none }

/-- A concrete classifier success suggesting `"invoices"`, differing
only in case from the configured `"Invoices"`. -/
def sampleResult : AnalysisResult :=
  { folder := "invoices"
    tags := ["tag"]
    summary := "sum"
    suggestedFilename := "a-new.pdf" }

/-- A concrete orchestrator state with taxonomy `"Invoices, Receipts"`. -/
def sampleState : AppState :=
  { files := [samplePendingRec]
    folders := "Invoices, Receipts"
    isProcessing := true
    processedCount := 0
    totalToProcess := 1 }

/-- Witness for C5: `"invoices"` case-insensitively matches the existing
`"Invoices"`, and the configuration string is left unchanged. -/
theorem C5_folder_merge_canonicalization_witness :
    ((foldersForSelect sampleState.folders).find?
        (fun f =>
          jsToLower f == jsToLower (sanitizeFolderPath sampleResult.folder)) =
        some "Invoices") ∧
      (processOne (Except.ok sampleResult) samplePendingRec
        sampleState).folders = sampleState.folders :=
  ⟨by decide,
    ((C5_folder_merge_canonicalization sampleState samplePendingRec
          sampleResult).1 "Invoices" (by decide)).2.2.1⟩

/-! ## Lemmas: the orchestration run (claim C4) -/

/-- Every settled classification call updates the state in the same
shape: a keyed map over `files` whose update keeps the record id and
assigns a terminal status, plus a counter increment. -/
theorem processOne_shape (res : Except Unit AnalysisResult) (file : FileRec)
    (s : AppState) :
    ∃ u : FileRec → FileRec,
      (processOne res file s).files =
          s.files.map (fun f => if f.id == file.id then u f else f) ∧
        (processOne res file s).processedCount = s.processedCount + 1 ∧
        (processOne res file s).totalToProcess = s.totalToProcess ∧
        (∀ f, (u f).id = f.id) ∧
        (∀ f, (u f).status = FileStatus.done ∨ (u f).status = FileStatus.error) := by
  cases res with
  | ok result =>
    cases hfind : (foldersForSelect s.folders).find?
        (fun f => jsToLower f == jsToLower (sanitizeFolderPath result.folder)) with
    | some m =>
      refine ⟨applySuccess result (sanitizeFolderPath result.folder) m
        (sanitizeFilename result.suggestedFilename), ?_, ?_, ?_, ?_, ?_⟩
      · simp only [processOne, hfind]
      · simp only [processOne, hfind]
      · simp only [processOne, hfind]
      · intro f; rfl
      · intro f; exact Or.inl rfl
    | none =>
      refine ⟨applySuccess result (sanitizeFolderPath result.folder)
        (sanitizeFolderPath result.folder)
        (sanitizeFilename result.suggestedFilename), ?_, ?_, ?_, ?_, ?_⟩
      · simp only [processOne, hfind]
      · simp only [processOne, hfind]
      · simp only [processOne, hfind]
      · intro f; rfl
      · intro f; exact Or.inl rfl
  | error e =>
    refine ⟨fun f => { f with
      status := FileStatus.error
      errorMessage := some "AI analysis failed." }, ?_, ?_, ?_, ?_, ?_⟩
    · simp only [processOne]
    · simp only [processOne]
    · simp only [processOne]
    · intro f; rfl
    · intro f; exact Or.inr rfl

theorem forall₂_trans_comp {α β γ : Type _} {R : α → β → Prop}
    {S : β → γ → Prop} {T : α → γ → Prop}
    (h : ∀ a b c, R a b → S b c → T a c) :
    ∀ {l₁ : List α} {l₂ : List β} {l₃ : List γ},
      List.Forall₂ R l₁ l₂ → List.Forall₂ S l₂ l₃ → List.Forall₂ T l₁ l₃ := by
  intro l₁ l₂ l₃ h12
  induction h12 generalizing l₃ with
  | nil =>
    intro h23
    cases h23
    exact List.Forall₂.nil
  | cons hab h12' ih =>
    intro h23
    cases h23 with
    | cons hbc h23' => exact List.Forall₂.cons (h _ _ _ hab hbc) (ih h23')

/-- The per-record settlement relation guaranteed by a (sub-)run over the
records `l`: ids are preserved, records with a submitted id settle
terminally, and other records are untouched. -/
def SettledOver (l : List FileRec) (a b : FileRec) : Prop :=
  a.id = b.id ∧
    (a.id ∈ l.map (fun f => f.id) →
      b.status = FileStatus.done ∨ b.status = FileStatus.error) ∧
    (a.id ∉ l.map (fun f => f.id) → b = a)

theorem processBatch_spec (oracle : Nat → Except Unit AnalysisResult) :
    ∀ (l : List FileRec) (i : Nat) (s : AppState),
      (processBatch oracle l i s).processedCount =
          s.processedCount + l.length ∧
        (processBatch oracle l i s).totalToProcess = s.totalToProcess ∧
        List.Forall₂ (SettledOver l) s.files (processBatch oracle l i s).files := by
  intro l
  induction l with
  | nil =>
    intro i s
    refine ⟨rfl, rfl, ?_⟩
    refine List.forall₂_same.2 ?_
    intro x _
    exact ⟨rfl, fun h => absurd h (by simp), fun _ => rfl⟩
  | cons f rest ih =>
    intro i s
    rcases processOne_shape (oracle i) f s with ⟨u, hfiles, hcount, htotal, hid, hstat⟩
    have hone : List.Forall₂
        (fun a b => a.id = b.id ∧
          (a.id = f.id →
            b.status = FileStatus.done ∨ b.status = FileStatus.error) ∧
          (a.id ≠ f.id → b = a))
        s.files (processOne (oracle i) f s).files := by
      rw [hfiles]
      refine List.forall₂_map_right_iff.2 (List.forall₂_same.2 ?_)
      intro x _
      by_cases hx : x.id = f.id
      · have hxb : (x.id == f.id) = true := by simpa using hx
        rw [if_pos hxb]
        exact ⟨(hid x).symm, fun _ => hstat x, fun hne => absurd hx hne⟩
      · have hxb : ¬((x.id == f.id) = true) := by simpa using hx
        rw [if_neg hxb]
        exact ⟨rfl, fun h => absurd h hx, fun _ => rfl⟩
    rcases ih (i + 1) (processOne (oracle i) f s) with ⟨ihcount, ihtotal, ihrel⟩
    refine ⟨?_, ?_, ?_⟩
    · show (processBatch oracle rest (i + 1)
        (processOne (oracle i) f s)).processedCount = _
      rw [ihcount, hcount]
      simp only [List.length_cons]
      omega
    · show (processBatch oracle rest (i + 1)
        (processOne (oracle i) f s)).totalToProcess = _
      rw [ihtotal, htotal]
    · show List.Forall₂ (SettledOver (f :: rest)) s.files
        (processBatch oracle rest (i + 1) (processOne (oracle i) f s)).files
      refine forall₂_trans_comp ?_ hone ihrel
      rintro a b c ⟨hab, hterm1, hkeep1⟩ ⟨hbc, hterm2, hkeep2⟩
      refine ⟨hab.trans hbc, ?_, ?_⟩
      · intro hmem
        rw [List.map_cons] at hmem
        rcases List.mem_cons.1 hmem with hf | hrest
        · have hb := hterm1 hf
          by_cases hb2 : b.id ∈ rest.map (fun f => f.id)
          · exact hterm2 hb2
          · rw [hkeep2 hb2]; exact hb
        · have hmem2 : b.id ∈ rest.map (fun f => f.id) := by
            rw [← hab]; exact hrest
          exact hterm2 hmem2
      · intro hmem
        have hnotf : a.id ≠ f.id := fun h =>
          hmem (by rw [List.map_cons]; exact List.mem_cons.2 (Or.inl h))
        have hnotrest : a.id ∉ rest.map (fun f => f.id) := fun h =>
          hmem (by rw [List.map_cons]; exact List.mem_cons.2 (Or.inr h))
        have hb := hkeep1 hnotf
        have hbnot : b.id ∉ rest.map (fun f => f.id) := by
          rw [← hab]; exact hnotrest
        rw [hkeep2 hbnot, hb]

theorem processWindows_spec (oracle : Nat → Except Unit AnalysisResult)
    (l : List FileRec) (i : Nat) (s : AppState) :
    (processWindows oracle l i s).processedCount =
        s.processedCount + l.length ∧
      (processWindows oracle l i s).totalToProcess = s.totalToProcess ∧
      List.Forall₂ (SettledOver l) s.files (processWindows oracle l i s).files := by
  induction l, i, s using processWindows.induct oracle with
  | case1 i s =>
    have h0 : processWindows oracle [] i s = s := by rw [processWindows]
    rw [h0]
    refine ⟨by simp, rfl, List.forall₂_same.2 ?_⟩
    intro x _
    exact ⟨rfl, fun h => absurd h (by simp), fun _ => rfl⟩
  | case2 f rest i s ih =>
    rcases processBatch_spec oracle (f :: rest.take (CONCURRENCY_LIMIT - 1)) i s
      with ⟨hc1, ht1, hrel1⟩
    rcases ih with ⟨hc2, ht2, hrel2⟩
    have hpw : processWindows oracle (f :: rest) i s =
        processWindows oracle (rest.drop (CONCURRENCY_LIMIT - 1))
          (i + CONCURRENCY_LIMIT)
          (processBatch oracle (f :: rest.take (CONCURRENCY_LIMIT - 1)) i s) := by
      rw [processWindows]
    rw [hpw]
    have hsplit : rest.take (CONCURRENCY_LIMIT - 1) ++
        rest.drop (CONCURRENCY_LIMIT - 1) = rest :=
      List.take_append_drop _ rest
    refine ⟨?_, ?_, ?_⟩
    · rw [hc2, hc1]
      have hlen : (rest.take (CONCURRENCY_LIMIT - 1)).length +
          (rest.drop (CONCURRENCY_LIMIT - 1)).length = rest.length := by
        have hcong := congrArg List.length hsplit
        simpa only [List.length_append] using hcong
      simp only [List.length_cons]
      omega
    · rw [ht2, ht1]
    · refine forall₂_trans_comp ?_ hrel1 hrel2
      rintro a b c ⟨hab, hterm1, hkeep1⟩ ⟨hbc, hterm2, hkeep2⟩
      refine ⟨hab.trans hbc, ?_, ?_⟩
      · intro hmem
        have hmem2 :
            a.id ∈ (f :: rest.take (CONCURRENCY_LIMIT - 1)).map
                (fun f => f.id) ∨
              a.id ∈ (rest.drop (CONCURRENCY_LIMIT - 1)).map
                (fun f => f.id) := by
          rw [List.map_cons] at hmem ⊢
          rcases List.mem_cons.1 hmem with h | h
          · exact Or.inl (List.mem_cons.2 (Or.inl h))
          · rw [← hsplit, List.map_append] at h
            rcases List.mem_append.1 h with h | h
            · exact Or.inl (List.mem_cons.2 (Or.inr h))
            · exact Or.inr h
        rcases hmem2 with h | h
        · have hb := hterm1 h
          by_cases hb2 : b.id ∈ (rest.drop (CONCURRENCY_LIMIT - 1)).map
              (fun f => f.id)
          · exact hterm2 hb2
          · rw [hkeep2 hb2]; exact hb
        · have hbm : b.id ∈ (rest.drop (CONCURRENCY_LIMIT - 1)).map
              (fun f => f.id) := by
            rw [← hab]; exact h
          exact hterm2 hbm
      · intro hmem
        have hnot1 : a.id ∉ (f :: rest.take (CONCURRENCY_LIMIT - 1)).map
            (fun f => f.id) := by
          intro h
          apply hmem
          rw [List.map_cons] at h ⊢
          rcases List.mem_cons.1 h with h | h
          · exact List.mem_cons.2 (Or.inl h)
          · refine List.mem_cons.2 (Or.inr ?_)
            rw [← hsplit, List.map_append]
            exact List.mem_append_left _ h
        have hnot2 : a.id ∉ (rest.drop (CONCURRENCY_LIMIT - 1)).map
            (fun f => f.id) := by
          intro h
          apply hmem
          rw [List.map_cons]
          refine List.mem_cons.2 (Or.inr ?_)
          rw [← hsplit, List.map_append]
          exact List.mem_append_right _ h
        have hb := hkeep1 hnot1
        have hbnot : b.id ∉ (rest.drop (CONCURRENCY_LIMIT - 1)).map
            (fun f => f.id) := by
          rw [← hab]; exact hnot2
        rw [hkeep2 hbnot, hb]

/-- Claim C4: a run of `organizeFiles` over N pending records, for every
pattern of classifier successes and failures: it reaches the windowed
loop (`ran`), each of the N submitted records ends with terminal status
`done` or `error` (none is left `pending` or `processing`), the settled
counter equals N, and the progress percentage is exactly 100. -/
theorem C4_run_settles_every_record
    (oracle : Nat → Except Unit AnalysisResult) (s : AppState)
    (hidle : s.isProcessing = false)
    (hpend :
      (s.files.filter (fun f => f.status == FileStatus.pending)).length ≠ 0) :
    (organizeFiles oracle s).2 = RunOutcome.ran ∧
      (organizeFiles oracle s).1.totalToProcess =
        (s.files.filter (fun f => f.status == FileStatus.pending)).length ∧
      (organizeFiles oracle s).1.processedCount =
        (s.files.filter (fun f => f.status == FileStatus.pending)).length ∧
      progressPercentage (organizeFiles oracle s).1 = 100 ∧
      List.Forall₂
        (fun a b => a.id = b.id ∧
          (a.status = FileStatus.pending →
            b.status = FileStatus.done ∨ b.status = FileStatus.error))
        s.files (organizeFiles oracle s).1.files := by
  have hpendb :
      ((s.files.filter (fun f => f.status == FileStatus.pending)).length == 0) =
        false := by
    rw [beq_eq_false_iff_ne]; exact hpend
  have hfoldb : ((foldersForSelect s.folders).length == 0) = false := by
    rw [beq_eq_false_iff_ne]
    intro h
    exact foldersForSelect_ne_nil s.folders (List.length_eq_zero.1 h)
  have hred : organizeFiles oracle s =
      ({ processWindows oracle
          (s.files.filter (fun f => f.status == FileStatus.pending)) 0
          { files := s.files.map (fun f =>
              if f.status == FileStatus.pending
              then { f with status := FileStatus.processing } else f)
            folders := s.folders
            isProcessing := true
            processedCount := 0
            totalToProcess :=
              (s.files.filter (fun f => f.status == FileStatus.pending)).length } with
          isProcessing := false }, RunOutcome.ran) := by
    simp only [organizeFiles, hidle, Bool.false_eq_true, if_false, hpendb,
      hfoldb]
  rcases processWindows_spec oracle
      (s.files.filter (fun f => f.status == FileStatus.pending)) 0
      { files := s.files.map (fun f =>
          if f.status == FileStatus.pending
          then { f with status := FileStatus.processing } else f)
        folders := s.folders
        isProcessing := true
        processedCount := 0
        totalToProcess :=
          (s.files.filter (fun f => f.status == FileStatus.pending)).length }
    with ⟨hcount, htotal, hrel⟩
  have houtcome : (organizeFiles oracle s).2 = RunOutcome.ran := by
    rw [hred]
  have htotal2 : (organizeFiles oracle s).1.totalToProcess =
      (s.files.filter (fun f => f.status == FileStatus.pending)).length := by
    rw [hred]
    exact htotal
  have hcount2 : (organizeFiles oracle s).1.processedCount =
      (s.files.filter (fun f => f.status == FileStatus.pending)).length := by
    rw [hred]
    show (processWindows oracle _ 0 _).processedCount = _
    rw [hcount]
    simp
  have hprog : progressPercentage (organizeFiles oracle s).1 = 100 := by
    rw [progressPercentage, htotal2, hcount2, if_neg hpend]
    rw [div_self (by exact_mod_cast hpend)]
    norm_num
  refine ⟨houtcome, htotal2, hcount2, hprog, ?_⟩
  have hmark : List.Forall₂
      (fun a b => a.id = b.id ∧
        (a.status = FileStatus.pending →
          a.id ∈ (s.files.filter
            (fun f => f.status == FileStatus.pending)).map (fun f => f.id)))
      s.files
      (s.files.map (fun f =>
        if f.status == FileStatus.pending
        then { f with status := FileStatus.processing } else f)) := by
    refine List.forall₂_map_right_iff.2 (List.forall₂_same.2 ?_)
    intro x hx
    constructor
    · by_cases hp : (x.status == FileStatus.pending) = true
      · rw [if_pos hp]
      · rw [if_neg hp]
    · intro hpx
      have hxf : x ∈ s.files.filter (fun f => f.status == FileStatus.pending) :=
        List.mem_filter.2 ⟨hx, by simp [hpx]⟩
      exact List.mem_map.2 ⟨x, hxf, rfl⟩
  have hfiles : (organizeFiles oracle s).1.files =
      (processWindows oracle
        (s.files.filter (fun f => f.status == FileStatus.pending)) 0
        { files := s.files.map (fun f =>
            if f.status == FileStatus.pending
            then { f with status := FileStatus.processing } else f)
          folders := s.folders
          isProcessing := true
          processedCount := 0
          totalToProcess :=
            (s.files.filter (fun f => f.status == FileStatus.pending)).length }).files := by
    rw [hred]
  rw [hfiles]
  refine forall₂_trans_comp ?_ hmark hrel
  rintro a b c ⟨hab, hpendmem⟩ ⟨hbc, hterm, _⟩
  refine ⟨hab.trans hbc, ?_⟩
  intro hp
  have ha := hpendmem hp
  have hb : b.id ∈ (s.files.filter
      (fun f => f.status == FileStatus.pending)).map (fun f => f.id) := by
    rw [← hab]; exact ha
  exact hterm hb

/-- A second concrete pending record. -/
def samplePendingRec2 : FileRec :=
  { samplePendingRec with
    id := "p2"
    name := "b.pdf"
    originalPath := "ToSort/b.pdf" }

/-- A concrete idle state with two pending records. -/
def sampleRunState : AppState :=
  { files := [samplePendingRec, samplePendingRec2]
    folders := "Invoices"
    isProcessing := false
    processedCount := 0
    totalToProcess := 0 }

/-- A concrete success/failure pattern: record 0 classifies, record 1
fails. -/
def sampleOracle : Nat → Except Unit AnalysisResult :=
  fun i => if i == 0 then Except.ok sampleResult else Except.error ()

/-- Witness for C4: the two-record run with one induced failure ends with
outcome `ran` and both records settled. -/
theorem C4_run_settles_every_record_witness :
    (organizeFiles sampleOracle sampleRunState).2 = RunOutcome.ran ∧
      (organizeFiles sampleOracle sampleRunState).1.processedCount = 2 :=
  ⟨(C4_run_settles_every_record sampleOracle sampleRunState (by decide)
      (by decide)).1,
    ((C4_run_settles_every_record sampleOracle sampleRunState (by decide)
      (by decide)).2.2.1).trans (by decide)⟩

/-! ## Claim C7: the empty-folder abort path -/

/-- A concrete state with nonzero progress counters and a pending
record. -/
def sampleAbortState : AppState :=
  { files := [samplePendingRec]
    folders := "Invoices"
    isProcessing := false
    processedCount := 3
    totalToProcess := 7 }

/-- Claim C7 is refuted for the progress counters: the state mutations
the code performs on the empty-folder refusal path (executed only after
`totalToProcess` and `processedCount` have already been set at lines
332-333) do change both counters. -/
theorem C7_counterexample :
    (organizeAbortEmptyFolders sampleAbortState 1).processedCount ≠
        sampleAbortState.processedCount ∧
      (organizeAbortEmptyFolders sampleAbortState 1).totalToProcess ≠
        sampleAbortState.totalToProcess := by
  decide

/-- Claim C7 as amended: the empty-folder refusal path aborts before any
record transitions to `processing` — `files` (hence every status) and
`folders` are untouched, and `isProcessing` is back to `false` — but it
does mutate the progress counters, which were already set before the
check: `totalToProcess` becomes the refused run's pending count and
`processedCount` is reset to 0. (The branch is in any case unreachable,
`foldersForSelect` being never empty.) -/
theorem C7_abort_branch_state (s : AppState) (n : Nat) :
    (organizeAbortEmptyFolders s n).files = s.files ∧
      (organizeAbortEmptyFolders s n).folders = s.folders ∧
      (organizeAbortEmptyFolders s n).isProcessing = false ∧
      (organizeAbortEmptyFolders s n).totalToProcess = n ∧
      (organizeAbortEmptyFolders s n).processedCount = 0 :=
  ⟨rfl, rfl, rfl, rfl, rfl⟩

/-! ## Claim C8: refusal on non-absolute paths -/

/-- A drive-letter colon: a colon immediately preceded by an ASCII
letter (the spec's wording of the absolute-path marker). -/
def hasDriveLetterColonL : List Char → Bool
  | a :: b :: rest => (a.isAlpha && b == ':') || hasDriveLetterColonL (b :: rest)
  | _ => false

/-- The absolute-path marker exactly as the claim words it: a
drive-letter colon, or a leading root separator. -/
def specAbsoluteMarker (p : String) : Bool :=
  hasDriveLetterColonL p.data || p.data.head? == some '/'

/-- Claim C8 is refuted on its wording: `"1:x"` contains no drive-letter
colon and no leading root separator, yet the code's check
(`includes(':')`) accepts it and a script is produced. -/
theorem C8_counterexample :
    specAbsoluteMarker "1:x" = false ∧
      (downloadScript [sampleDoneRec] "1:x" "C:\\Dest").isSome = true := by
  decide

/-- Claim C8 as amended: script generation is refused (no output)
whenever either path argument is empty or lacks the code's absolute-path
marker — containing no colon at all (rather than no drive-letter colon)
and not starting with `/`. -/
theorem C8_refuses_non_absolute_paths (files : List FileRec)
    (src dst : String)
    (h : hasAbsolutePathMarker src = false ∨
      hasAbsolutePathMarker dst = false) :
    downloadScript files src dst = none := by
  unfold downloadScript canDownloadScript
  rcases h with h | h <;> simp [h]

/-- Witness for the amended C8 at the claim's own example
(`sourcePath = "myfolder"`, `destinationPath = "C:\Dest"`). -/
theorem C8_refuses_non_absolute_paths_witness :
    (hasAbsolutePathMarker "myfolder" = false ∨
        hasAbsolutePathMarker "C:\\Dest" = false) ∧
      downloadScript [sampleDoneRec] "myfolder" "C:\\Dest" = none :=
  ⟨Or.inl (by decide),
    C8_refuses_non_absolute_paths [sampleDoneRec] "myfolder" "C:\\Dest"
      (Or.inl (by decide))⟩

/-! ## Claim C9: the do-not-move sentinel -/

/-- Claim C9: a participating record whose `finalFolder` is the
do-not-move sentinel gets no move statement: with `useNewName = false`
(or an effective name equal to the original) it contributes no script
text at all, with `useNewName = true` and a differing effective name a
guarded in-place rename is emitted instead, and the sentinel never
contributes a folder-creation entry. -/
theorem C9_sentinel_emits_no_move (sourcePath destinationPath : String)
    (f : FileRec) (hf : f.finalFolder = some "--do-not-move--") :
    (f.useNewName = false → fileSnippet sourcePath destinationPath f = []) ∧
      (f.useNewName = true → newNameOf f ≠ originalFileNameOnly f →
        fileSnippet sourcePath destinationPath f = renameSnippet sourcePath f) ∧
      (f.useNewName = true → newNameOf f = originalFileNameOnly f →
        fileSnippet sourcePath destinationPath f = []) ∧
      ∀ files : List FileRec, "--do-not-move--" ∉ foldersToCreate files := by
  have hcond : ((("--do-not-move--" : String) != "") &&
      (("--do-not-move--" : String) != "--do-not-move--")) = false := by decide
  have hsnip : fileSnippet sourcePath destinationPath f =
      (if (f.useNewName && newNameOf f != originalFileNameOnly f) = true then
        renameSnippet sourcePath f else []) := by
    simp only [fileSnippet, hf, hcond, Bool.false_eq_true, if_false]
  refine ⟨?_, ?_, ?_, ?_⟩
  · intro hu
    rw [hsnip, if_neg]
    simp [hu]
  · intro hu hne
    rw [hsnip, if_pos]
    simp [hu, hne]
  · intro hu heq
    rw [hsnip, if_neg]
    simp [hu, heq]
  · intro files hmem
    have hin := jsSetDedup_subset _ _ _ hmem
    have hprop := (List.mem_filter.1 hin).2
    simp at hprop

/-- A concrete analyzed record with the do-not-move sentinel and no
rename requested. -/
def sampleSentinelRec : FileRec :=
  { sampleDoneRec with
    finalFolder := some "--do-not-move--"
    useNewName := false }

/-- Witness for C9: the sentinel record with `useNewName = false`
contributes no script lines. -/
theorem C9_sentinel_emits_no_move_witness :
    sampleSentinelRec.finalFolder = some "--do-not-move--" ∧
      fileSnippet "C:\\In" "C:\\Out" sampleSentinelRec = [] :=
  ⟨by decide,
    (C9_sentinel_emits_no_move "C:\\In" "C:\\Out" sampleSentinelRec
      (by decide)).1 (by decide)⟩

/-! ## Lemmas: idempotence of taxonomy normalization (claim C6) -/

/-- No two adjacent characters are both separators. -/
def noAdjacentSeps : List Char → Prop
  | c1 :: c2 :: rest => ¬(isSep c1 = true ∧ isSep c2 = true) ∧
      noAdjacentSeps (c2 :: rest)
  | _ => True

theorem collapseSeps_cons_head (c : Char) (rest : List Char) :
    ∃ t, collapseSeps (c :: rest) = (if isSep c = true then '/' else c) :: t := by
  induction rest generalizing c with
  | nil =>
    refine ⟨[], ?_⟩
    by_cases h : isSep c = true
    · rw [if_pos h]; simp [collapseSeps, h]
    · rw [if_neg h]; simp [collapseSeps, h]
  | cons c2 rest2 ih =>
    by_cases h1 : isSep c = true
    · rw [if_pos h1]
      by_cases h2 : isSep c2 = true
      · rcases ih c2 with ⟨t, ht⟩
        rw [if_pos h2] at ht
        refine ⟨t, ?_⟩
        rw [show collapseSeps (c :: c2 :: rest2) = collapseSeps (c2 :: rest2)
          from by simp [collapseSeps, h1, h2]]
        exact ht
      · refine ⟨collapseSeps (c2 :: rest2), ?_⟩
        simp [collapseSeps, h1, h2]
    · rw [if_neg h1]
      refine ⟨collapseSeps (c2 :: rest2), ?_⟩
      simp [collapseSeps, h1]

theorem collapseSeps_noAdjacent : ∀ l : List Char,
    noAdjacentSeps (collapseSeps l) := by
  intro l
  induction l using collapseSeps.induct with
  | case1 => trivial
  | case2 c hs => simp only [collapseSeps, hs, if_true]; trivial
  | case3 c hs => simp only [collapseSeps, hs, if_false]; trivial
  | case4 c1 c2 rest h1 h2 ih =>
    simpa only [collapseSeps, h1, h2, if_true] using ih
  | case5 c1 c2 rest h1 h2 ih =>
    simp only [collapseSeps, h1, h2, if_true, if_false]
    rcases collapseSeps_cons_head c2 rest with ⟨t, ht⟩
    rw [if_neg h2] at ht
    rw [ht]
    rw [ht] at ih
    exact ⟨fun hc => h2 hc.2, ih⟩
  | case6 c1 c2 rest h1 ih =>
    simp only [collapseSeps, h1, if_false]
    rcases collapseSeps_cons_head c2 rest with ⟨t, ht⟩
    rw [ht]
    rw [ht] at ih
    refine ⟨fun hc => h1 hc.1, ih⟩

theorem collapseSeps_eq_self : ∀ l : List Char,
    noAdjacentSeps l → '\\' ∉ l → collapseSeps l = l := by
  intro l
  induction l using collapseSeps.induct with
  | case1 => intro _ _; rfl
  | case2 c hs =>
    intro _ hbs
    have hc : c = '/' := by
      rcases (by simpa [isSep] using hs : c = '/' ∨ c = '\\') with h | h
      · exact h
      · exact absurd (h ▸ List.mem_singleton.2 rfl) hbs
    simp [collapseSeps, hs, hc]
  | case3 c hs => intro _ _; simp [collapseSeps, hs]
  | case4 c1 c2 rest h1 h2 ih =>
    intro hadj _
    exact absurd ⟨h1, h2⟩ hadj.1
  | case5 c1 c2 rest h1 h2 ih =>
    intro hadj hbs
    have hc : c1 = '/' := by
      rcases (by simpa [isSep] using h1 : c1 = '/' ∨ c1 = '\\') with h | h
      · exact h
      · exact absurd (h ▸ List.mem_cons_self _ _) hbs
    have htail : collapseSeps (c2 :: rest) = c2 :: rest :=
      ih hadj.2 (fun hm => hbs (List.mem_cons_of_mem c1 hm))
    simp [collapseSeps, h1, h2, hc, htail]
  | case6 c1 c2 rest h1 ih =>
    intro hadj hbs
    have htail : collapseSeps (c2 :: rest) = c2 :: rest :=
      ih hadj.2 (fun hm => hbs (List.mem_cons_of_mem c1 hm))
    simp [collapseSeps, h1, htail]

theorem collapseSeps_idem (l : List Char) :
    collapseSeps (collapseSeps l) = collapseSeps l :=
  collapseSeps_eq_self (collapseSeps l) (collapseSeps_noAdjacent l)
    (collapseSeps_no_backslash l)

theorem jsTrimL_subset {c : Char} : ∀ {l : List Char}, c ∈ jsTrimL l → c ∈ l := by
  intro l hc
  unfold jsTrimL at hc
  rw [List.mem_reverse] at hc
  have h1 := (List.dropWhile_sublist (l := (l.dropWhile isJsWhitespace).reverse)
    (p := isJsWhitespace)).subset hc
  rw [List.mem_reverse] at h1
  exact (List.dropWhile_sublist (l := l) (p := isJsWhitespace)).subset h1

theorem jsTrimL_cons_ws {c : Char} (hc : isJsWhitespace c = true)
    (l : List Char) : jsTrimL (c :: l) = jsTrimL l := by
  unfold jsTrimL
  rw [List.dropWhile_cons_of_pos hc]

theorem splitCommasL_ne_nil : ∀ l : List Char, splitCommasL l ≠ [] := by
  intro l
  cases l with
  | nil => simp [splitCommasL]
  | cons c rest =>
    by_cases hc : (c == ',') = true
    · simp [splitCommasL, hc]
    · simp only [splitCommasL, hc, Bool.false_eq_true, if_false]
      cases h : splitCommasL rest with
      | nil => simp
      | cons g gs => simp

theorem splitCommasL_no_comma :
    ∀ (l : List Char) (g : List Char), g ∈ splitCommasL l → ',' ∉ g := by
  intro l
  induction l with
  | nil =>
    intro g hg
    rcases List.mem_singleton.1 hg with rfl
    exact List.not_mem_nil ','
  | cons c rest ih =>
    intro g hg
    by_cases hc : (c == ',') = true
    · simp only [splitCommasL, hc, if_true] at hg
      rcases List.mem_cons.1 hg with rfl | hg
      · exact List.not_mem_nil ','
      · exact ih g hg
    · simp only [splitCommasL, hc, Bool.false_eq_true, if_false] at hg
      cases h : splitCommasL rest with
      | nil => exact absurd h (splitCommasL_ne_nil rest)
      | cons g0 gs =>
        rw [h] at hg
        rcases List.mem_cons.1 hg with rfl | hg
        · intro hmem
          rcases List.mem_cons.1 hmem with heq | hmem
          · rw [heq] at hc; simp at hc
          · exact ih g0 (h ▸ List.mem_cons_self g0 gs) hmem
        · exact ih g (h ▸ List.mem_cons_of_mem g0 hg)

theorem splitCommasL_of_no_comma :
    ∀ l : List Char, ',' ∉ l → splitCommasL l = [l] := by
  intro l
  induction l with
  | nil => intro _; rfl
  | cons c rest ih =>
    intro hnc
    have hc : (c == ',') = false := by
      rw [beq_eq_false_iff_ne]
      intro h
      exact hnc (h ▸ List.mem_cons_self c rest)
    have hrest : splitCommasL rest = [rest] :=
      ih (fun hm => hnc (List.mem_cons_of_mem c hm))
    simp only [splitCommasL, hc, Bool.false_eq_true, if_false, hrest]

theorem splitCommasL_append_comma :
    ∀ (g m : List Char), ',' ∉ g →
      splitCommasL (g ++ ',' :: m) = g :: splitCommasL m := by
  intro g
  induction g with
  | nil =>
    intro m _
    simp [splitCommasL]
  | cons c g' ih =>
    intro m hnc
    have hc : (c == ',') = false := by
      rw [beq_eq_false_iff_ne]
      intro h
      exact hnc (h ▸ List.mem_cons_self c g')
    have hrest : splitCommasL (g' ++ ',' :: m) = g' :: splitCommasL m :=
      ih m (fun hm => hnc (List.mem_cons_of_mem c hm))
    show splitCommasL (c :: (g' ++ ',' :: m)) = (c :: g') :: splitCommasL m
    simp only [splitCommasL, hc, Bool.false_eq_true, if_false, hrest]

theorem splitCommasL_join :
    ∀ (gs : List (List Char)) (g : List Char), ',' ∉ g →
      (∀ h ∈ gs, ',' ∉ h) →
      splitCommasL (joinWithL [',', ' '] (g :: gs)) =
        g :: gs.map (fun h => ' ' :: h) := by
  intro gs
  induction gs with
  | nil =>
    intro g hg _
    show splitCommasL (joinWithL [',', ' '] [g]) = [g]
    exact splitCommasL_of_no_comma g hg
  | cons g1 gs' ih =>
    intro g hg hgs
    have hjoin : joinWithL [',', ' '] (g :: g1 :: gs') =
        g ++ ',' :: ' ' :: joinWithL [',', ' '] (g1 :: gs') := by
      show (g ++ [',', ' ']) ++ joinWithL [',', ' '] (g1 :: gs') = _
      rw [List.append_assoc]
      rfl
    rw [hjoin, splitCommasL_append_comma g _ hg]
    have hIH := ih g1 (hgs g1 (List.mem_cons_self g1 gs'))
      (fun h hm => hgs h (List.mem_cons_of_mem g1 hm))
    rw [List.map_cons]
    congr 1
    have hsp : ((' ' : Char) == ',') = false := by decide
    cases hJ : splitCommasL (joinWithL [',', ' '] (g1 :: gs')) with
    | nil => exact absurd hJ (splitCommasL_ne_nil _)
    | cons a as =>
      have hstep : splitCommasL (' ' :: joinWithL [',', ' '] (g1 :: gs')) =
          (' ' :: a) :: as := by
        simp only [splitCommasL, hsp, Bool.false_eq_true, if_false, hJ]
      rw [hstep]
      rw [hJ] at hIH
      injection hIH with ha has
      rw [ha, has]

theorem parseFolderConfig_entries (x : String) (e : String)
    (he : e ∈ parseFolderConfig x) :
    e ≠ "" ∧ (∃ raw : String, e = sanitizeFolderPath raw) ∧ ',' ∉ e.data := by
  unfold parseFolderConfig at he
  have hne : e ≠ "" := by
    have hp := (List.mem_filter.1 he).2
    simpa [bne_iff_ne] using hp
  have hmem := (List.mem_filter.1 he).1
  rcases List.mem_map.1 hmem with ⟨w, hw, rfl⟩
  rcases List.mem_map.1 hw with ⟨g, hg, rfl⟩
  refine ⟨hne, ⟨⟨g⟩, rfl⟩, ?_⟩
  intro hc
  by_cases hwe : ((⟨g⟩ : String) == "") = true
  · apply hne
    rw [show (⟨g⟩ : String) = "" from by simpa using hwe]
    rfl
  · have hdata : (sanitizeFolderPath ⟨g⟩).data =
        collapseSeps ((jsTrimL g).filter (fun c => !folderIllegalChar c)) := by
      simp [sanitizeFolderPath, hwe]
    rw [hdata] at hc
    rcases collapseSeps_mem _ _ hc with h | h
    · exact absurd h (by decide)
    · have h2 := (List.mem_filter.1 h).1
      have h3 := jsTrimL_subset h2
      exact splitCommasL_no_comma _ g hg h3

theorem foldersForSelect_entries (x : String) (e : String)
    (he : e ∈ foldersForSelect x) :
    e ≠ "" ∧ (∃ raw : String, e = sanitizeFolderPath raw) ∧ ',' ∉ e.data := by
  rw [foldersForSelect_eq] at he
  have he2 := (List.mem_insertionSort jsLe).1 he
  unfold foldersWithMisc at he2
  by_cases h : ((jsSetDedup [] (parseFolderConfig x)).find?
      (fun f => jsToLower f == "miscellaneous")).isSome = true
  · rw [if_pos h] at he2
    exact parseFolderConfig_entries x e (jsSetDedup_subset _ _ _ he2)
  · rw [if_neg h] at he2
    rcases List.mem_append.1 he2 with h2 | h2
    · exact parseFolderConfig_entries x e (jsSetDedup_subset _ _ _ h2)
    · rcases List.mem_singleton.1 h2 with rfl
      exact ⟨by decide, ⟨"Miscellaneous", by decide⟩, by decide⟩

/-- A sanitizer output with no edge whitespace is a fixed point of the
sanitizer. -/
theorem sanitizeFolderPath_fixed (raw e : String)
    (hsan : e = sanitizeFolderPath raw) (htrim : jsTrim e = e) :
    sanitizeFolderPath e = e := by
  by_cases hee : (e == "") = true
  · rw [show e = "" from by simpa using hee]
    rfl
  · have hdata_e : jsTrimL e.data = e.data := congrArg String.data htrim
    by_cases hre : (raw == "") = true
    · exfalso
      apply (by simpa using hee : ¬e = "")
      rw [hsan, show raw = "" from by simpa using hre]
      rfl
    · have hm : e.data = collapseSeps
          ((jsTrimL raw.data).filter (fun c => !folderIllegalChar c)) := by
        rw [hsan]
        simp [sanitizeFolderPath, hre]
      have hfilter : e.data.filter (fun c => !folderIllegalChar c) = e.data := by
        apply List.filter_eq_self.2
        intro c hcmem
        rw [hm] at hcmem
        rcases collapseSeps_mem _ _ hcmem with rfl | hcm
        · decide
        · exact (List.mem_filter.1 hcm).2
      have hcoll : collapseSeps e.data = e.data := by
        rw [hm]
        exact collapseSeps_idem _
      rw [show sanitizeFolderPath e =
          ⟨collapseSeps ((jsTrimL e.data).filter
            (fun c => !folderIllegalChar c))⟩ from by
        simp [sanitizeFolderPath, hee]]
      rw [hdata_e, hfilter, hcoll]

/-- The leading space that re-splitting a `', '`-joined configuration
puts in front of each entry is absorbed by the trim. -/
theorem sanitizeFolderPath_space_cons (e : String) :
    sanitizeFolderPath ⟨' ' :: e.data⟩ = sanitizeFolderPath e := by
  by_cases hee : (e == "") = true
  · rw [show e = "" from by simpa using hee]
    decide
  · have hne : ((⟨' ' :: e.data⟩ : String) == "") = false := by
      rw [beq_eq_false_iff_ne]
      intro hcontra
      have hd := congrArg String.data hcontra
      simp at hd
    rw [show sanitizeFolderPath ⟨' ' :: e.data⟩ =
        ⟨collapseSeps ((jsTrimL (' ' :: e.data)).filter
          (fun c => !folderIllegalChar c))⟩ from by
      simp [sanitizeFolderPath, hne]]
    rw [jsTrimL_cons_ws (by decide) e.data]
    simp [sanitizeFolderPath, hee]

theorem parseFolderConfig_join (L : List String) (hnil : L ≠ [])
    (hcomma : ∀ e ∈ L, ',' ∉ e.data)
    (hfix : ∀ e ∈ L, sanitizeFolderPath e = e)
    (hnempty : ∀ e ∈ L, e ≠ "") :
    parseFolderConfig (joinCommaSpace L) = L := by
  cases L with
  | nil => exact absurd rfl hnil
  | cons e0 rest =>
    have hsplit : splitCommasL (joinWithL [',', ' ']
        ((e0 :: rest).map String.data)) =
        e0.data :: (rest.map String.data).map (fun h => ' ' :: h) := by
      rw [List.map_cons]
      refine splitCommasL_join (rest.map String.data) e0.data
        (hcomma e0 (List.mem_cons_self _ _)) ?_
      intro h hm
      rcases List.mem_map.1 hm with ⟨e, he, rfl⟩
      exact hcomma e (List.mem_cons_of_mem e0 he)
    have h1 : jsSplitCommas (joinCommaSpace (e0 :: rest)) =
        e0 :: rest.map (fun e => (⟨' ' :: e.data⟩ : String)) := by
      unfold jsSplitCommas joinCommaSpace
      rw [show (String.mk (joinWithL [',', ' ']
          ((e0 :: rest).map String.data))).data =
        joinWithL [',', ' '] ((e0 :: rest).map String.data) from rfl]
      rw [hsplit]
      simp [List.map_map, Function.comp]
    have h2 : (jsSplitCommas (joinCommaSpace (e0 :: rest))).map
        sanitizeFolderPath = e0 :: rest := by
      rw [h1, List.map_cons]
      congr 1
      · exact hfix e0 (List.mem_cons_self _ _)
      · rw [List.map_map]
        have hcong : ∀ a ∈ rest,
            (sanitizeFolderPath ∘ fun e => (⟨' ' :: e.data⟩ : String)) a =
              id a := by
          intro a ha
          show sanitizeFolderPath ⟨' ' :: a.data⟩ = a
          rw [sanitizeFolderPath_space_cons a]
          exact hfix a (List.mem_cons_of_mem e0 ha)
        rw [List.map_congr_left hcong, List.map_id]
    show ((jsSplitCommas (joinCommaSpace (e0 :: rest))).map
        sanitizeFolderPath).filter (fun f => f != "") = e0 :: rest
    rw [h2]
    apply List.filter_eq_self.2
    intro a ha
    simpa [bne_iff_ne] using hnempty a ha

/-- Claim C6 is refuted as stated: sanitizing `"a <"` deletes the `<`
and exposes a trailing space, so the normalized entry `"a "` is
re-trimmed to `"a"` by a second normalization pass — re-normalizing the
normalized configuration changes it. -/
theorem C6_counterexample :
    foldersForSelect (joinCommaSpace (foldersForSelect "a <")) ≠
      foldersForSelect "a <" := by
  decide

/-- Claim C6 as amended: normalization is idempotent on every
configuration whose normalized entries carry no leading or trailing JS
whitespace (equivalently, entries fixed by trim): re-normalizing the
`', '`-joined normalized list reproduces it exactly. (Deleting illegal
characters can expose edge whitespace, which only the next pass trims —
the one way a second pass can differ.) -/
theorem C6_normalization_idempotent_on_trim_fixed (x : String)
    (h : ∀ e ∈ foldersForSelect x, jsTrim e = e) :
    foldersForSelect (joinCommaSpace (foldersForSelect x)) =
      foldersForSelect x := by
  have hparse : parseFolderConfig (joinCommaSpace (foldersForSelect x)) =
      foldersForSelect x := by
    apply parseFolderConfig_join
    · exact foldersForSelect_ne_nil x
    · intro e he
      exact (foldersForSelect_entries x e he).2.2
    · intro e he
      rcases (foldersForSelect_entries x e he).2.1 with ⟨raw, hraw⟩
      exact sanitizeFolderPath_fixed raw e hraw (h e he)
    · intro e he
      exact (foldersForSelect_entries x e he).1
  rw [foldersForSelect_eq]
  unfold foldersWithMisc
  rw [hparse]
  rw [jsSetDedup_eq_self (foldersForSelect x) [] (foldersForSelect_nodup x)
    (fun a _ => List.not_mem_nil a)]
  have hfind : ((foldersForSelect x).find?
      (fun f => jsToLower f == "miscellaneous")).isSome = true := by
    rcases foldersForSelect_misc x with ⟨e, he, hlow⟩
    exact List.find?_isSome.2 ⟨e, he, by simpa using hlow⟩
  rw [if_pos hfind]
  exact List.Sorted.insertionSort_eq (foldersForSelect_sorted x)

/-- Witness for the amended C6 at the configuration `"b, a"`, all of
whose normalized entries are trim-fixed. -/
theorem C6_normalization_idempotent_on_trim_fixed_witness :
    (∀ e ∈ foldersForSelect "b, a", jsTrim e = e) ∧
      foldersForSelect (joinCommaSpace (foldersForSelect "b, a")) =
        foldersForSelect "b, a" :=
  ⟨by decide, C6_normalization_idempotent_on_trim_fixed "b, a" (by decide)⟩

end GeminiFileSorter
